import Mathlib

/-!
Verification of the megawatcher aggregator core: the revision-stamped
entity store (allInfo), the dispatcher (allWatcher) and the client
handle (StateWatcher), as exercised by state/megawatcher_internal_test.go.
The implementation file itself is not part of the source tree, so the
definitions below are modelled from the specification, with every point
of behaviour pinned by the expectations of the internal test file
(allInfoChangeMethodTests, TestChangesSince, TestHandle*, TestRespond*).
-/

namespace Megawatcher

/-- Modelled from the spec: the InfoId pair (kind, id) uniquely identifying
an entity.  The test harness builds it with idForInfo (testEntityId). -/
structure InfoId where
  kind : String
  eid : String
deriving DecidableEq

/-- Modelled from the spec: an EntityInfo exposes kind and id; the concrete
payload is opaque to the core, with equality by value.  The payload field
stands for the rest of the record (for machines, the InstanceId). -/
structure EntityInfo where
  kind : String
  eid : String
  payload : String
deriving DecidableEq

/-- Modelled from the spec: idForInfo derives the canonical InfoId of an
EntityInfo, as the idForInfo helper of the test file does. -/
def idForInfo (info : EntityInfo) : InfoId :=
  ⟨info.kind, info.eid⟩

/-- Modelled from the spec: the entityEntry record held by allInfo.
refCount is kept as a Nat; the Go code panics when it would go negative,
which no reachable execution does. -/
structure EntityEntry where
  info : EntityInfo
  creationRevno : Int
  revno : Int
  removed : Bool
  refCount : Nat
deriving DecidableEq

/-- Modelled from the spec: the Delta envelope \x7bRemoved, Entity\x7d. -/
structure Delta where
  removed : Bool
  entity : EntityInfo
deriving DecidableEq

/-- The delta reported for an entry, as changesSince builds it. -/
def EntityEntry.toDelta (e : EntityEntry) : Delta :=
  ⟨e.removed, e.info⟩

/-- Modelled from the spec: the allInfo store.  The Go original keeps an
intrusive list (front = newest) plus a map from InfoId to list element;
here the entries list is ordered oldest first (ascending revno) and the
map is implicit, entries being looked up through idForInfo. -/
structure AllInfo where
  latestRevno : Int
  entries : List EntityEntry
deriving DecidableEq

/-- Modelled from the spec: newAllInfo starts with latestRevno 0 and no
entries. -/
def newAllInfo : AllInfo :=
  ⟨0, []⟩

/-- Lookup of the entry holding the given id (the entities map of the Go
code). -/
def AllInfo.findEntry (a : AllInfo) (id : InfoId) : Option EntityEntry :=
  a.entries.find? (fun e => decide (idForInfo e.info = id))

/-- Drop every entry holding the given id (at most one in well-formed
states). -/
def removeId (id : InfoId) (l : List EntityEntry) : List EntityEntry :=
  l.filter (fun e => decide (idForInfo e.info ≠ id))

/-- Modelled from the spec: add appends a fresh entry with
revno = creationRevno = latestRevno + 1, refCount 0, not removed.  The Go
code asserts the id is absent; callers guarantee it. -/
def AllInfo.add (a : AllInfo) (info : EntityInfo) : AllInfo :=
  { latestRevno := a.latestRevno + 1,
    entries := a.entries ++ [⟨info, a.latestRevno + 1, a.latestRevno + 1, false, 0⟩] }

/-- Modelled from the spec: delete performs unconditional physical removal
with no revision bump (test case "delete entry" expects latestRevno
unchanged). -/
def AllInfo.delete (a : AllInfo) (id : InfoId) : AllInfo :=
  { a with entries := removeId id a.entries }

/-- Bump the refCount of an entry when it holds the given id. -/
def bumpRef (id : InfoId) (e : EntityEntry) : EntityEntry :=
  if idForInfo e.info = id then { e with refCount := e.refCount + 1 } else e

/-- Decrement the refCount of an entry when it holds the given id. -/
def dropRef (id : InfoId) (e : EntityEntry) : EntityEntry :=
  if idForInfo e.info = id then { e with refCount := e.refCount - 1 } else e

/-- incRef as the test helper allInfoIncRef performs it: bump the refCount
of the entry with the given id. -/
def AllInfo.incRef (a : AllInfo) (id : InfoId) : AllInfo :=
  { a with entries := a.entries.map (bumpRef id) }

/-- Modelled from the spec: decRef decrements the refCount and, when the
entry is a tombstone whose count reaches zero, deletes it.  The Go code
panics on a negative count; reachable states never decrement past zero. -/
def AllInfo.decRef (a : AllInfo) (id : InfoId) : AllInfo :=
  match a.findEntry id with
  | none => a
  | some e =>
    if e.removed ∧ e.refCount ≤ 1 then a.delete id
    else { a with entries := a.entries.map (dropRef id) }

/-- Modelled from the spec: markRemoved, the removal half of update.
Behaviour pinned by allInfoChangeMethodTests: an unknown id is a no-op;
an already removed entry is left untouched (test "mark removed on already
marked entry" expects no further revno bump); a live entry with zero
refCount is physically deleted while latestRevno is still advanced (test
"mark removed on entry with zero ref count" expects latestRevno 2); a
live entry with holders becomes a tombstone moved to the newest end. -/
def AllInfo.markRemoved (a : AllInfo) (id : InfoId) : AllInfo :=
  match a.findEntry id with
  | none => a
  | some e =>
    if e.removed then a
    else if e.refCount = 0 then
      { latestRevno := a.latestRevno + 1, entries := removeId id a.entries }
    else
      { latestRevno := a.latestRevno + 1,
        entries := removeId id a.entries ++
          [{ e with revno := a.latestRevno + 1, removed := true }] }

/-- Modelled from the spec: update.  A null info delegates to markRemoved;
a fresh id is added; an existing entry has its info replaced, revno bumped
and is moved to the newest end, with the removed flag cleared. -/
def AllInfo.update (a : AllInfo) (id : InfoId) (info : Option EntityInfo) : AllInfo :=
  match info with
  | none => a.markRemoved id
  | some i =>
    match a.findEntry id with
    | none => a.add i
    | some e =>
      { latestRevno := a.latestRevno + 1,
        entries := removeId id a.entries ++
          [{ e with revno := a.latestRevno + 1, info := i, removed := false }] }

/-- The emission test of changesSince as a proposition: the entry mutated
after revision r, and a tombstone is only reported to clients that saw the
entity live (creationRevno ≤ r). -/
def emits (r : Int) (e : EntityEntry) : Prop :=
  r < e.revno ∧ ¬(e.removed = true ∧ r < e.creationRevno)

instance (r : Int) (e : EntityEntry) : Decidable (emits r e) := by
  unfold emits; infer_instance

/-- Modelled from the spec: changesSince returns, in entries order, one
delta per entry with revno > r, silently skipping tombstones whose
creationRevno > r (behaviour pinned by TestChangesSince). -/
def AllInfo.changesSince (a : AllInfo) (r : Int) : List Delta :=
  (a.entries.filter (fun e => decide (emits r e))).map EntityEntry.toDelta

/-- Modelled from the spec: the mutable per-client fields of a
StateWatcher: its revision cursor (0 meaning it has seen nothing) and its
stopped flag.  Clients are identified by a Nat. -/
structure WState where
  revno : Int
  stopped : Bool
deriving DecidableEq

/-- Modelled from the spec: an allRequest carries the requesting watcher
and either a reply channel (a Next request, identified here by a request
id) or no reply channel (a stop request). -/
structure AllRequest where
  wid : Nat
  reply : Option Nat
deriving DecidableEq

/-- A reply delivered on a request reply channel: the boolean sent plus
the changes stored in the request record on success. -/
structure Reply where
  wid : Nat
  reqId : Nat
  ok : Bool
  changes : List Delta
deriving DecidableEq

/-- Replace the value bound to a key in an association list, or append
the binding when the key is absent. -/
def setAssoc {α : Type} (k : Nat) (v : α) : List (Nat × α) → List (Nat × α)
  | [] => [(k, v)]
  | (k', v') :: rest => if k' = k then (k, v) :: rest else (k', v') :: setAssoc k v rest

/-- Drop a key from an association list. -/
def eraseKey {α : Type} (k : Nat) (l : List (Nat × α)) : List (Nat × α) :=
  l.filter (fun p => decide (p.1 ≠ k))

/-- Look up a key in an association list. -/
def getAssoc {α : Type} (k : Nat) (l : List (Nat × α)) : Option α :=
  (l.find? (fun p => decide (p.1 = k))).map Prod.snd

/-- Modelled from the spec: the allWatcher dispatcher state: its allInfo,
the per-client LIFO queues of pending requests (head = newest) and the
per-client watcher fields it reads and writes. -/
structure AllWatcher where
  all : AllInfo
  waiting : List (Nat × List Nat)
  wstates : List (Nat × WState)
deriving DecidableEq

/-- A fresh dispatcher with no entries, queues or clients. -/
def newAllWatcher : AllWatcher :=
  ⟨newAllInfo, [], []⟩

/-- The watcher fields for a client id: a client never seen starts at
revno 0, not stopped. -/
def AllWatcher.getW (aw : AllWatcher) (wid : Nat) : WState :=
  match getAssoc wid aw.wstates with
  | some w => w
  | none => ⟨0, false⟩

/-- The pending request queue of a client (head = newest). -/
def AllWatcher.getQueue (aw : AllWatcher) (wid : Nat) : List Nat :=
  match getAssoc wid aw.waiting with
  | some q => q
  | none => []

/-- The ids of the entries a leaving watcher still holds a reference to:
those it saw live (creationRevno ≤ its cursor) and has not yet been told
are removed (either the entry is live, or its removal is newer than the
cursor).  The condition is pinned by TestHandleStopDecRefIfAlreadySeen-
AndNotRemoved (decref fires at cursor = revno on a live entry, so the
spec clause requiring cursor < revno is dropped for live entries) and by
TestRespondResults (tombstone holds must be released on stop for the
final state to contain no tombstone). -/
def heldByWatcher (wrevno : Int) (e : EntityEntry) : Prop :=
  e.creationRevno ≤ wrevno ∧ (e.removed = false ∨ wrevno < e.revno)

instance (wrevno : Int) (e : EntityEntry) : Decidable (heldByWatcher wrevno e) := by
  unfold heldByWatcher; infer_instance

/-- Modelled from the spec: the decref pass run when a client leaves.  It
decrements the refCount of every entry the client still held. -/
def AllInfo.leave (a : AllInfo) (wrevno : Int) : AllInfo :=
  ((a.entries.filter (fun e => decide (heldByWatcher wrevno e))).map
    (fun e => idForInfo e.info)).foldl AllInfo.decRef a

/-- Modelled from the spec: handle.  A request for a stopped watcher is
immediately replied false; a stop request replies false to every pending
request of the client (newest first), drops its queue, marks it stopped
and runs the leave pass; a Next request is pushed onto the head of the
client queue.  Behaviour pinned by TestHandle and the TestHandleStop
family. -/
def AllWatcher.handle (aw : AllWatcher) (req : AllRequest) : AllWatcher × List Reply :=
  if (aw.getW req.wid).stopped then
    (aw, match req.reply with
         | some r => [⟨req.wid, r, false, []⟩]
         | none => [])
  else
    match req.reply with
    | none =>
      ({ all := aw.all.leave (aw.getW req.wid).revno,
         waiting := eraseKey req.wid aw.waiting,
         wstates := setAssoc req.wid ⟨(aw.getW req.wid).revno, true⟩ aw.wstates },
       (aw.getQueue req.wid).map (fun r => ⟨req.wid, r, false, []⟩))
    | some r =>
      ({ aw with waiting := setAssoc req.wid (r :: aw.getQueue req.wid) aw.waiting }, [])

/-- Modelled from the spec: the refcount accounting run when a batch of
changes computed from cursor revno is delivered: a removal delta releases
the client hold (decRef); a live delta for an entity created after the
cursor is the first sight of that entity and records the hold (incRef).
A live delta for an already-seen entity leaves the count unchanged, as
TestRespondResults requires. -/
def AllInfo.seen (a : AllInfo) (revno : Int) (changes : List Delta) : AllInfo :=
  changes.foldl
    (fun acc d =>
      let id := idForInfo d.entity
      if d.removed then acc.decRef id
      else
        match acc.findEntry id with
        | none => acc
        | some e => if revno < e.creationRevno then acc.incRef id else acc)
    a

/-- The per-client portion of a respond pass: compute the changes since
the client cursor; when nonempty, run the seen accounting, answer the
newest pending request with them and advance the cursor to latestRevno,
keeping the older requests queued. -/
def AllWatcher.respondOne (aw : AllWatcher) (wid : Nat) : AllWatcher × List Reply :=
  if (aw.all.changesSince (aw.getW wid).revno).isEmpty then (aw, [])
  else
    match aw.getQueue wid with
    | [] => (aw, [])
    | r :: rest =>
      ({ all := aw.all.seen (aw.getW wid).revno (aw.all.changesSince (aw.getW wid).revno),
         waiting := if rest.isEmpty then eraseKey wid aw.waiting
                    else setAssoc wid rest aw.waiting,
         wstates := setAssoc wid ⟨aw.all.latestRevno, (aw.getW wid).stopped⟩ aw.wstates },
       [⟨wid, r, true, aw.all.changesSince (aw.getW wid).revno⟩])

/-- Modelled from the spec: respond visits every client with pending
requests and runs the per-client pass.  Behaviour pinned by
TestRespondMultiple and TestRespondResults. -/
def AllWatcher.respond (aw : AllWatcher) : AllWatcher × List Reply :=
  (aw.waiting.map Prod.fst).foldl
    (fun acc wid => ((acc.1.respondOne wid).1, acc.2 ++ (acc.1.respondOne wid).2))
    (aw, [])

/-! ### Basic lemmas about the store operations -/

theorem mem_removeId {id : InfoId} {l : List EntityEntry} {x : EntityEntry} :
    x ∈ removeId id l ↔ x ∈ l ∧ idForInfo x.info ≠ id := by
  simp [removeId, List.mem_filter]

theorem removeId_sublist (id : InfoId) (l : List EntityEntry) :
    (removeId id l).Sublist l :=
  List.filter_sublist l

theorem findEntry_some {a : AllInfo} {id : InfoId} {e : EntityEntry}
    (h : a.findEntry id = some e) : e ∈ a.entries ∧ idForInfo e.info = id := by
  refine ⟨List.mem_of_find?_eq_some h, ?_⟩
  have := List.find?_some h
  simpa using this

theorem findEntry_none_iff {a : AllInfo} {id : InfoId} :
    a.findEntry id = none ↔ ∀ e ∈ a.entries, idForInfo e.info ≠ id := by
  simp [AllInfo.findEntry, List.find?_eq_none]

/-- Distinct ids as a pairwise relation on entries. -/
def IdsDistinct (l : List EntityEntry) : Prop :=
  l.Pairwise (fun e1 e2 => idForInfo e1.info ≠ idForInfo e2.info)

instance (l : List EntityEntry) : Decidable (IdsDistinct l) := by
  unfold IdsDistinct; infer_instance

theorem mem_id_unique {l : List EntityEntry} (hpw : IdsDistinct l)
    {x y : EntityEntry} (hx : x ∈ l) (hy : y ∈ l)
    (hid : idForInfo x.info = idForInfo y.info) : x = y := by
  induction l with
  | nil => cases hx
  | cons a t ih =>
    rcases List.pairwise_cons.mp hpw with ⟨ha, ht⟩
    rcases List.mem_cons.mp hx with hx | hx <;> rcases List.mem_cons.mp hy with hy | hy
    · rw [hx, hy]
    · exact absurd (hx ▸ hid) (ha y hy)
    · exact absurd (hy ▸ hid.symm) (ha x hx)
    · exact ih ht hx hy

theorem findEntry_of_mem {a : AllInfo} (hpw : IdsDistinct a.entries)
    {e : EntityEntry} (he : e ∈ a.entries) :
    a.findEntry (idForInfo e.info) = some e := by
  rcases h : a.findEntry (idForInfo e.info) with _ | x
  · exact absurd rfl (findEntry_none_iff.mp h e he)
  · rcases findEntry_some h with ⟨hx, hid⟩
    rw [mem_id_unique hpw hx he hid]

theorem bumpRef_info (id : InfoId) (e : EntityEntry) : (bumpRef id e).info = e.info := by
  unfold bumpRef; split <;> rfl

theorem bumpRef_revno (id : InfoId) (e : EntityEntry) : (bumpRef id e).revno = e.revno := by
  unfold bumpRef; split <;> rfl

theorem bumpRef_creation (id : InfoId) (e : EntityEntry) :
    (bumpRef id e).creationRevno = e.creationRevno := by
  unfold bumpRef; split <;> rfl

theorem bumpRef_removed (id : InfoId) (e : EntityEntry) :
    (bumpRef id e).removed = e.removed := by
  unfold bumpRef; split <;> rfl

theorem dropRef_info (id : InfoId) (e : EntityEntry) : (dropRef id e).info = e.info := by
  unfold dropRef; split <;> rfl

theorem dropRef_revno (id : InfoId) (e : EntityEntry) : (dropRef id e).revno = e.revno := by
  unfold dropRef; split <;> rfl

theorem dropRef_creation (id : InfoId) (e : EntityEntry) :
    (dropRef id e).creationRevno = e.creationRevno := by
  unfold dropRef; split <;> rfl

theorem dropRef_removed (id : InfoId) (e : EntityEntry) :
    (dropRef id e).removed = e.removed := by
  unfold dropRef; split <;> rfl

/-! ### The store invariant -/

/-- Per-entry wellformedness: revisions start at 1, creation precedes the
last mutation, nothing is newer than latestRevno, and a tombstone is held
by at least one client (spec invariants I1, I5, I6, P1, P3). -/
def EntryOK (latest : Int) (e : EntityEntry) : Prop :=
  1 ≤ e.creationRevno ∧ e.creationRevno ≤ e.revno ∧ e.revno ≤ latest ∧
    (e.removed = true → 1 ≤ e.refCount)

instance (latest : Int) (e : EntityEntry) : Decidable (EntryOK latest e) := by
  unfold EntryOK; infer_instance

/-- The allInfo invariant: a non-negative latestRevno, pairwise distinct
ids, entries strictly ascending by revno, and every entry well-formed. -/
def AllInfo.WF (a : AllInfo) : Prop :=
  0 ≤ a.latestRevno ∧ IdsDistinct a.entries ∧
    a.entries.Pairwise (fun e1 e2 => e1.revno < e2.revno) ∧
    ∀ e ∈ a.entries, EntryOK a.latestRevno e

instance (a : AllInfo) : Decidable a.WF := by
  unfold AllInfo.WF IdsDistinct; infer_instance

theorem WF_newAllInfo : newAllInfo.WF := by decide

theorem AllInfo.WF.add {a : AllInfo} (h : a.WF)
    {info : EntityInfo} (habs : a.findEntry (idForInfo info) = none) :
    (a.add info).WF := by
  obtain ⟨h0, hids, hord, hok⟩ := h
  have habs' := findEntry_none_iff.mp habs
  refine ⟨show (0:Int) ≤ a.latestRevno + 1 by omega, ?_, ?_, ?_⟩
  · show IdsDistinct (a.entries ++ [⟨info, a.latestRevno + 1, a.latestRevno + 1, false, 0⟩])
    refine List.pairwise_append.mpr ⟨hids, List.pairwise_singleton _ _, ?_⟩
    intro x hx b hb
    rcases List.mem_singleton.mp hb with rfl
    exact fun hc => habs' x hx hc
  · show List.Pairwise (fun e1 e2 => e1.revno < e2.revno)
      (a.entries ++ [⟨info, a.latestRevno + 1, a.latestRevno + 1, false, 0⟩])
    refine List.pairwise_append.mpr ⟨hord, List.pairwise_singleton _ _, ?_⟩
    intro x hx b hb
    rcases List.mem_singleton.mp hb with rfl
    obtain ⟨x1, x2, x3, x4⟩ := hok x hx
    show x.revno < a.latestRevno + 1
    omega
  · intro e he
    rcases List.mem_append.mp he with he | he
    · obtain ⟨h1, h2, h3, h4⟩ := hok e he
      exact ⟨h1, h2, by show e.revno ≤ a.latestRevno + 1; omega, h4⟩
    · rcases List.mem_singleton.mp he with rfl
      exact ⟨by show (1:Int) ≤ a.latestRevno + 1; omega, le_refl _, le_refl _, by simp⟩

theorem AllInfo.WF.delete {a : AllInfo} (h : a.WF) (id : InfoId) : (a.delete id).WF := by
  obtain ⟨h0, hids, hord, hok⟩ := h
  refine ⟨h0, hids.sublist (removeId_sublist id _), hord.sublist (removeId_sublist id _), ?_⟩
  intro e he
  exact hok e (mem_removeId.mp he).1

theorem AllInfo.WF.incRef {a : AllInfo} (h : a.WF) (id : InfoId) : (a.incRef id).WF := by
  obtain ⟨h0, hids, hord, hok⟩ := h
  refine ⟨h0, ?_, ?_, ?_⟩
  · show IdsDistinct (a.entries.map (bumpRef id))
    unfold IdsDistinct
    rw [List.pairwise_map]
    exact hids.imp (fun {x y} hxy => by rw [bumpRef_info, bumpRef_info]; exact hxy)
  · show List.Pairwise (fun e1 e2 => e1.revno < e2.revno) (a.entries.map (bumpRef id))
    rw [List.pairwise_map]
    exact hord.imp (fun {x y} hxy => by rw [bumpRef_revno, bumpRef_revno]; exact hxy)
  · intro e he
    rcases List.mem_map.mp he with ⟨y, hy, rfl⟩
    obtain ⟨h1, h2, h3, h4⟩ := hok y hy
    refine ⟨by rw [bumpRef_creation]; exact h1,
      by rw [bumpRef_creation, bumpRef_revno]; exact h2,
      by rw [bumpRef_revno]; exact h3, ?_⟩
    intro hrm
    rw [bumpRef_removed] at hrm
    have h5 := h4 hrm
    unfold bumpRef
    split
    · show 1 ≤ y.refCount + 1
      omega
    · show 1 ≤ y.refCount
      omega

theorem AllInfo.WF.decRef {a : AllInfo} (h : a.WF) (id : InfoId) : (a.decRef id).WF := by
  have hids0 := h.2.1
  cases hfind : a.findEntry id with
  | none =>
    simpa only [AllInfo.decRef, hfind] using h
  | some e =>
    rcases findEntry_some hfind with ⟨hmem, hid⟩
    by_cases hcond : e.removed = true ∧ e.refCount ≤ 1
    · have hgoal : a.decRef id = a.delete id := by
        simp only [AllInfo.decRef, hfind, if_pos hcond]
      rw [hgoal]
      exact h.delete id
    · have hgoal : a.decRef id = { a with entries := a.entries.map (dropRef id) } := by
        simp only [AllInfo.decRef, hfind, if_neg hcond]
      rw [hgoal]
      obtain ⟨h0, hids, hord, hok⟩ := h
      refine ⟨h0, ?_, ?_, ?_⟩
      · show IdsDistinct (a.entries.map (dropRef id))
        unfold IdsDistinct
        rw [List.pairwise_map]
        exact hids.imp (fun {x y} hxy => by rw [dropRef_info, dropRef_info]; exact hxy)
      · show List.Pairwise (fun e1 e2 => e1.revno < e2.revno) (a.entries.map (dropRef id))
        rw [List.pairwise_map]
        exact hord.imp (fun {x y} hxy => by rw [dropRef_revno, dropRef_revno]; exact hxy)
      · intro x hx
        rcases List.mem_map.mp hx with ⟨y, hy, rfl⟩
        obtain ⟨h1, h2, h3, h4⟩ := hok y hy
        refine ⟨by rw [dropRef_creation]; exact h1,
          by rw [dropRef_creation, dropRef_revno]; exact h2,
          by rw [dropRef_revno]; exact h3, ?_⟩
        intro hrm
        rw [dropRef_removed] at hrm
        unfold dropRef
        split
        · rename_i hyid
          have hye : y = e := mem_id_unique hids0 hy hmem (by rw [hyid, hid])
          subst hye
          simp only []
          have h6 : ¬(y.refCount ≤ 1) := fun hle => hcond ⟨hrm ▸ rfl, hle⟩
          omega
        · simpa using h4 hrm

theorem AllInfo.WF.markRemoved {a : AllInfo} (h : a.WF) (id : InfoId) :
    (a.markRemoved id).WF := by
  cases hfind : a.findEntry id with
  | none => simpa only [AllInfo.markRemoved, hfind] using h
  | some e =>
    rcases findEntry_some hfind with ⟨hmem, hid⟩
    obtain ⟨h0, hids, hord, hok⟩ := h
    by_cases hrm : e.removed = true
    · have hgoal : a.markRemoved id = a := by
        simp only [AllInfo.markRemoved, hfind, if_pos hrm]
      rw [hgoal]
      exact ⟨h0, hids, hord, hok⟩
    · by_cases hrc : e.refCount = 0
      · have hgoal : a.markRemoved id =
            { latestRevno := a.latestRevno + 1, entries := removeId id a.entries } := by
          simp only [AllInfo.markRemoved, hfind, if_neg hrm, if_pos hrc]
        rw [hgoal]
        refine ⟨by show (0:Int) ≤ a.latestRevno + 1; omega,
          hids.sublist (removeId_sublist id _), hord.sublist (removeId_sublist id _), ?_⟩
        intro x hx
        obtain ⟨h1, h2, h3, h4⟩ := hok x (mem_removeId.mp hx).1
        exact ⟨h1, h2, by show x.revno ≤ a.latestRevno + 1; omega, h4⟩
      · have hgoal : a.markRemoved id =
            { latestRevno := a.latestRevno + 1,
              entries := removeId id a.entries ++
                [{ e with revno := a.latestRevno + 1, removed := true }] } := by
          simp only [AllInfo.markRemoved, hfind, if_neg hrm, if_neg hrc]
        rw [hgoal]
        obtain ⟨he1, he2, he3, he4⟩ := hok e hmem
        refine ⟨by show (0:Int) ≤ a.latestRevno + 1; omega, ?_, ?_, ?_⟩
        · show IdsDistinct (removeId id a.entries ++
            [{ e with revno := a.latestRevno + 1, removed := true }])
          refine List.pairwise_append.mpr
            ⟨hids.sublist (removeId_sublist id _), List.pairwise_singleton _ _, ?_⟩
          intro x hx b hb
          rcases List.mem_singleton.mp hb with rfl
          have hne := (mem_removeId.mp hx).2
          show idForInfo x.info ≠ idForInfo e.info
          rw [hid]
          exact hne
        · refine List.pairwise_append.mpr
            ⟨hord.sublist (removeId_sublist id _), List.pairwise_singleton _ _, ?_⟩
          intro x hx b hb
          rcases List.mem_singleton.mp hb with rfl
          obtain ⟨h1, h2, h3, h4⟩ := hok x (mem_removeId.mp hx).1
          show x.revno < a.latestRevno + 1
          omega
        · intro x hx
          rcases List.mem_append.mp hx with hx | hx
          · obtain ⟨h1, h2, h3, h4⟩ := hok x (mem_removeId.mp hx).1
            exact ⟨h1, h2, by show x.revno ≤ a.latestRevno + 1; omega, h4⟩
          · rcases List.mem_singleton.mp hx with rfl
            refine ⟨he1, by show e.creationRevno ≤ a.latestRevno + 1; omega, le_refl _, ?_⟩
            intro _
            show 1 ≤ e.refCount
            omega

theorem AllInfo.WF.update {a : AllInfo} (h : a.WF) {id : InfoId} {info : Option EntityInfo}
    (hid : ∀ i, info = some i → idForInfo i = id) : (a.update id info).WF := by
  rcases info with _ | i
  · exact h.markRemoved id
  · have hii : idForInfo i = id := hid i rfl
    cases hfind : a.findEntry id with
    | none =>
      have hgoal : a.update id (some i) = a.add i := by
        simp only [AllInfo.update, hfind]
      rw [hgoal]
      exact h.add (by rwa [hii])
    | some e =>
      rcases findEntry_some hfind with ⟨hmem, hide⟩
      have hgoal : a.update id (some i) =
          { latestRevno := a.latestRevno + 1,
            entries := removeId id a.entries ++
              [{ e with revno := a.latestRevno + 1, info := i, removed := false }] } := by
        simp only [AllInfo.update, hfind]
      rw [hgoal]
      obtain ⟨h0, hids, hord, hok⟩ := h
      obtain ⟨he1, he2, he3, he4⟩ := hok e hmem
      refine ⟨by show (0:Int) ≤ a.latestRevno + 1; omega, ?_, ?_, ?_⟩
      · show IdsDistinct (removeId id a.entries ++
          [{ e with revno := a.latestRevno + 1, info := i, removed := false }])
        refine List.pairwise_append.mpr
          ⟨hids.sublist (removeId_sublist id _), List.pairwise_singleton _ _, ?_⟩
        intro x hx b hb
        rcases List.mem_singleton.mp hb with rfl
        have hne := (mem_removeId.mp hx).2
        show idForInfo x.info ≠ idForInfo i
        rw [hii]
        exact hne
      · refine List.pairwise_append.mpr
          ⟨hord.sublist (removeId_sublist id _), List.pairwise_singleton _ _, ?_⟩
        intro x hx b hb
        rcases List.mem_singleton.mp hb with rfl
        obtain ⟨h1, h2, h3, h4⟩ := hok x (mem_removeId.mp hx).1
        show x.revno < a.latestRevno + 1
        omega
      · intro x hx
        rcases List.mem_append.mp hx with hx | hx
        · obtain ⟨h1, h2, h3, h4⟩ := hok x (mem_removeId.mp hx).1
          exact ⟨h1, h2, by show x.revno ≤ a.latestRevno + 1; omega, h4⟩
        · rcases List.mem_singleton.mp hx with rfl
          exact ⟨he1, by show e.creationRevno ≤ a.latestRevno + 1; omega, le_refl _, by simp⟩

/-! ### latestRevno is only advanced by add, markRemoved and update -/

theorem AllInfo.delete_latest (a : AllInfo) (id : InfoId) :
    (a.delete id).latestRevno = a.latestRevno := rfl

theorem AllInfo.incRef_latest (a : AllInfo) (id : InfoId) :
    (a.incRef id).latestRevno = a.latestRevno := rfl

theorem AllInfo.decRef_latest (a : AllInfo) (id : InfoId) :
    (a.decRef id).latestRevno = a.latestRevno := by
  cases h : a.findEntry id with
  | none => simp only [AllInfo.decRef, h]
  | some e =>
    simp only [AllInfo.decRef, h]
    split <;> rfl

theorem foldl_decRef_latest (ids : List InfoId) (a : AllInfo) :
    (ids.foldl AllInfo.decRef a).latestRevno = a.latestRevno := by
  induction ids generalizing a with
  | nil => rfl
  | cons i t ih => rw [List.foldl_cons, ih, AllInfo.decRef_latest]

theorem AllInfo.leave_latest (a : AllInfo) (wrevno : Int) :
    (a.leave wrevno).latestRevno = a.latestRevno :=
  foldl_decRef_latest _ a

theorem AllInfo.seen_latest (a : AllInfo) (revno : Int) (changes : List Delta) :
    (a.seen revno changes).latestRevno = a.latestRevno := by
  induction changes generalizing a with
  | nil => rfl
  | cons d t ih =>
    show (AllInfo.seen _ revno t).latestRevno = _
    rw [ih]
    dsimp only
    split
    · exact AllInfo.decRef_latest a _
    · split
      · rfl
      · split
        · exact AllInfo.incRef_latest a _
        · rfl

/-! ### The invariant is preserved by the dispatcher operations -/

theorem foldl_decRef_WF {a : AllInfo} (h : a.WF) (ids : List InfoId) :
    (ids.foldl AllInfo.decRef a).WF := by
  induction ids generalizing a with
  | nil => exact h
  | cons i t ih => exact ih (h.decRef i)

theorem AllInfo.WF.leave {a : AllInfo} (h : a.WF) (wrevno : Int) :
    (a.leave wrevno).WF :=
  foldl_decRef_WF h _

theorem AllInfo.WF.seen {a : AllInfo} (h : a.WF) (revno : Int) (changes : List Delta) :
    (a.seen revno changes).WF := by
  induction changes generalizing a with
  | nil => exact h
  | cons d t ih =>
    show (AllInfo.seen _ revno t).WF
    apply ih
    dsimp only
    split
    · exact h.decRef _
    · split
      · exact h
      · split
        · exact h.incRef _
        · exact h

/-! ### Characterizations of handle and respondOne -/

theorem handle_of_stopped {aw : AllWatcher} {req : AllRequest}
    (h : (aw.getW req.wid).stopped = true) :
    aw.handle req = (aw, match req.reply with
                        | some r => [⟨req.wid, r, false, []⟩]
                        | none => []) := by
  unfold AllWatcher.handle
  rw [h]
  simp

theorem handle_of_stopreq {aw : AllWatcher} {wid : Nat}
    (h : (aw.getW wid).stopped = false) :
    aw.handle ⟨wid, none⟩ =
      ({ all := aw.all.leave (aw.getW wid).revno,
         waiting := eraseKey wid aw.waiting,
         wstates := setAssoc wid ⟨(aw.getW wid).revno, true⟩ aw.wstates },
       (aw.getQueue wid).map (fun r => ⟨wid, r, false, []⟩)) := by
  unfold AllWatcher.handle
  rw [h]
  simp

theorem handle_of_push {aw : AllWatcher} {wid r : Nat}
    (h : (aw.getW wid).stopped = false) :
    aw.handle ⟨wid, some r⟩ =
      ({ aw with waiting := setAssoc wid (r :: aw.getQueue wid) aw.waiting }, []) := by
  unfold AllWatcher.handle
  rw [h]
  simp

theorem respondOne_of_no_changes {aw : AllWatcher} {wid : Nat}
    (h : aw.all.changesSince (aw.getW wid).revno = []) :
    aw.respondOne wid = (aw, []) := by
  unfold AllWatcher.respondOne
  rw [h]
  simp

theorem respondOne_of_empty_queue {aw : AllWatcher} {wid : Nat}
    (h : aw.getQueue wid = []) :
    aw.respondOne wid = (aw, []) := by
  unfold AllWatcher.respondOne
  rw [h]
  split <;> rfl

theorem respondOne_of_changes {aw : AllWatcher} {wid r : Nat} {rest : List Nat}
    (hch : aw.all.changesSince (aw.getW wid).revno ≠ [])
    (hq : aw.getQueue wid = r :: rest) :
    aw.respondOne wid =
      ({ all := aw.all.seen (aw.getW wid).revno (aw.all.changesSince (aw.getW wid).revno),
         waiting := if rest.isEmpty then eraseKey wid aw.waiting
                    else setAssoc wid rest aw.waiting,
         wstates := setAssoc wid ⟨aw.all.latestRevno, (aw.getW wid).stopped⟩ aw.wstates },
       [⟨wid, r, true, aw.all.changesSince (aw.getW wid).revno⟩]) := by
  unfold AllWatcher.respondOne
  rw [hq]
  have : (aw.all.changesSince (aw.getW wid).revno).isEmpty = false := by
    cases hc : aw.all.changesSince (aw.getW wid).revno
    · exact absurd hc hch
    · rfl
  rw [this]
  simp

theorem AllWatcher.handle_all_WF {aw : AllWatcher} (h : aw.all.WF) (req : AllRequest) :
    ((aw.handle req).1).all.WF := by
  by_cases hst : (aw.getW req.wid).stopped = true
  · rw [handle_of_stopped hst]
    exact h
  · rcases req with ⟨wid, _ | r⟩
    · rw [handle_of_stopreq (by simpa using hst)]
      exact h.leave _
    · rw [handle_of_push (by simpa using hst)]
      exact h

theorem AllWatcher.respondOne_all_WF {aw : AllWatcher} (h : aw.all.WF) (wid : Nat) :
    ((aw.respondOne wid).1).all.WF := by
  by_cases hch : aw.all.changesSince (aw.getW wid).revno = []
  · rw [respondOne_of_no_changes hch]
    exact h
  · cases hq : aw.getQueue wid with
    | nil =>
      rw [respondOne_of_empty_queue hq]
      exact h
    | cons r rest =>
      rw [respondOne_of_changes hch hq]
      exact h.seen _ _

theorem AllWatcher.respondOne_latest (aw : AllWatcher) (wid : Nat) :
    ((aw.respondOne wid).1).all.latestRevno = aw.all.latestRevno := by
  by_cases hch : aw.all.changesSince (aw.getW wid).revno = []
  · rw [respondOne_of_no_changes hch]
  · cases hq : aw.getQueue wid with
    | nil => rw [respondOne_of_empty_queue hq]
    | cons r rest =>
      rw [respondOne_of_changes hch hq]
      exact AllInfo.seen_latest _ _ _

theorem foldl_respondOne_all_WF {aw : AllWatcher} (h : aw.all.WF) (wids : List Nat) :
    ((wids.foldl (fun acc wid =>
        ((acc.1.respondOne wid).1, acc.2 ++ (acc.1.respondOne wid).2))
        (aw, ([] : List Reply))).1).all.WF := by
  suffices hgen : ∀ (wids : List Nat) (p : AllWatcher × List Reply), p.1.all.WF →
      ((wids.foldl (fun acc wid =>
        ((acc.1.respondOne wid).1, acc.2 ++ (acc.1.respondOne wid).2)) p).1).all.WF by
    exact hgen wids (aw, []) h
  intro wids
  induction wids with
  | nil => intro p hp; exact hp
  | cons w t ih =>
    intro p hp
    exact ih _ (AllWatcher.respondOne_all_WF hp w)

theorem AllWatcher.respond_all_WF {aw : AllWatcher} (h : aw.all.WF) :
    ((aw.respond).1).all.WF :=
  foldl_respondOne_all_WF h _

theorem foldl_respondOne_latest (aw : AllWatcher) (wids : List Nat) :
    ((wids.foldl (fun acc wid =>
        ((acc.1.respondOne wid).1, acc.2 ++ (acc.1.respondOne wid).2))
        (aw, ([] : List Reply))).1).all.latestRevno =
      aw.all.latestRevno := by
  suffices hgen : ∀ (wids : List Nat) (p : AllWatcher × List Reply),
      ((wids.foldl (fun acc wid =>
        ((acc.1.respondOne wid).1, acc.2 ++ (acc.1.respondOne wid).2)) p).1).all.latestRevno =
        p.1.all.latestRevno by
    exact hgen wids (aw, [])
  intro wids
  induction wids with
  | nil => intro p; rfl
  | cons w t ih =>
    intro p
    rw [List.foldl_cons, ih]
    exact AllWatcher.respondOne_latest _ _

theorem AllWatcher.respond_latest (aw : AllWatcher) :
    ((aw.respond).1).all.latestRevno = aw.all.latestRevno :=
  foldl_respondOne_latest aw _

/-! ### Reachable dispatcher states -/

/-- One public operation on the aggregator, with the preconditions the Go
code asserts: add requires an absent id and update is invoked with the id
derived from the info, as every call site does. -/
inductive Step : AllWatcher → AllWatcher → Prop
  | add (aw : AllWatcher) (info : EntityInfo)
      (habs : aw.all.findEntry (idForInfo info) = none) :
      Step aw { aw with all := aw.all.add info }
  | update (aw : AllWatcher) (id : InfoId) (info : Option EntityInfo)
      (hid : ∀ i, info = some i → idForInfo i = id) :
      Step aw { aw with all := aw.all.update id info }
  | del (aw : AllWatcher) (id : InfoId) :
      Step aw { aw with all := aw.all.delete id }
  | incRef (aw : AllWatcher) (id : InfoId) :
      Step aw { aw with all := aw.all.incRef id }
  | decRef (aw : AllWatcher) (id : InfoId) :
      Step aw { aw with all := aw.all.decRef id }
  | handle (aw : AllWatcher) (req : AllRequest) :
      Step aw (aw.handle req).1
  | respond (aw : AllWatcher) :
      Step aw aw.respond.1

/-- Dispatcher states reachable from the fresh dispatcher by any sequence
of public operations. -/
def ReachableAW (aw : AllWatcher) : Prop :=
  Relation.ReflTransGen Step newAllWatcher aw

theorem Step.preserves_all_WF {aw aw' : AllWatcher} (s : Step aw aw')
    (h : aw.all.WF) : aw'.all.WF := by
  cases s with
  | add info habs => exact h.add habs
  | update id info hid => exact h.update hid
  | del id => exact h.delete id
  | incRef id => exact h.incRef id
  | decRef id => exact h.decRef id
  | handle req => exact AllWatcher.handle_all_WF h req
  | respond => exact AllWatcher.respond_all_WF h

theorem ReachableAW.all_WF {aw : AllWatcher} (h : ReachableAW aw) : aw.all.WF := by
  induction h with
  | refl => exact WF_newAllInfo
  | tail _ hstep ih => exact hstep.preserves_all_WF ih

/-- C2: after every sequence of public aggregator operations, no entry
with removed = true and refCount = 0 is retained: the store purges a
tombstone as soon as its last holder lets go. -/
theorem tombstone_refcount_invariant {aw : AllWatcher} (h : ReachableAW aw) :
    ∀ e ∈ aw.all.entries, e.removed = true → e.refCount ≠ 0 := by
  intro e he hrm
  have h4 := (h.all_WF.2.2.2 e he).2.2.2 hrm
  omega

/-- Concrete machine infos used by the witnesses, mirroring the entities
of the internal tests. -/
def mInfo (i inst : String) : EntityInfo := ⟨"machine", i, inst⟩

/-- The InfoId of a machine, as idForInfo computes it. -/
def mId (i : String) : InfoId := ⟨"machine", i⟩

/-- Witness for C2: in the state reached by add, incRef and removal, the
retained tombstone is held (refCount 1, not 0). -/
theorem tombstone_refcount_invariant_witness :
    (⟨mInfo "0" "", 1, 2, true, 1⟩ : EntityEntry) ∈ (AllWatcher.mk
        (((newAllInfo.add (mInfo "0" "")).incRef (mId "0")).update (mId "0") none)
        [] []).all.entries ∧
    1 ≤ (⟨mInfo "0" "", 1, 2, true, 1⟩ : EntityEntry).refCount := by
  have h1 : Step ⟨newAllInfo, [], []⟩ ⟨newAllInfo.add (mInfo "0" ""), [], []⟩ :=
    Step.add ⟨newAllInfo, [], []⟩ (mInfo "0" "") (by decide)
  have h2 : Step ⟨newAllInfo.add (mInfo "0" ""), [], []⟩
      ⟨(newAllInfo.add (mInfo "0" "")).incRef (mId "0"), [], []⟩ :=
    Step.incRef ⟨newAllInfo.add (mInfo "0" ""), [], []⟩ (mId "0")
  have h3 : Step ⟨(newAllInfo.add (mInfo "0" "")).incRef (mId "0"), [], []⟩
      ⟨((newAllInfo.add (mInfo "0" "")).incRef (mId "0")).update (mId "0") none, [], []⟩ :=
    Step.update ⟨(newAllInfo.add (mInfo "0" "")).incRef (mId "0"), [], []⟩ (mId "0") none
      (by intro i hi; cases hi)
  have hinv := tombstone_refcount_invariant
    (((Relation.ReflTransGen.refl.tail h1).tail h2).tail h3)
    ⟨mInfo "0" "", 1, 2, true, 1⟩ (by decide) rfl
  exact ⟨by decide, by omega⟩

/-! ### C1: the changesSince contract -/

/-- C1: changesSince R holds, in entries order (a sublist of the entries
sequence mapped to deltas), exactly one delta for every entry with
revno > R whose tombstone, if any, predates the client (creationRevno ≤
R); the delta carries the removed flag of the entry. -/
theorem changesSince_emits_spec (a : AllInfo) (R : Int) (h : a.WF) :
    (a.changesSince R).Sublist (a.entries.map EntityEntry.toDelta) ∧
    (∀ d, d ∈ a.changesSince R ↔ ∃ e ∈ a.entries,
      (R < e.revno ∧ (e.removed = true → e.creationRevno ≤ R)) ∧ d = e.toDelta) ∧
    (a.changesSince R).Nodup := by
  refine ⟨List.Sublist.map _ (List.filter_sublist _), ?_, ?_⟩
  · intro d
    constructor
    · intro hd
      rcases List.mem_map.mp hd with ⟨e, he, rfl⟩
      rcases List.mem_filter.mp he with ⟨hmem, hp⟩
      have hp' : emits R e := of_decide_eq_true hp
      obtain ⟨hp1, hp2⟩ := hp'
      refine ⟨e, hmem, ⟨hp1, ?_⟩, rfl⟩
      intro hrm
      by_contra hc
      exact hp2 ⟨hrm, by omega⟩
    · rintro ⟨e, hmem, ⟨hp1, hp2⟩, rfl⟩
      apply List.mem_map.mpr
      refine ⟨e, List.mem_filter.mpr ⟨hmem, ?_⟩, rfl⟩
      apply decide_eq_true
      refine ⟨hp1, ?_⟩
      rintro ⟨hrm, hcr⟩
      have := hp2 hrm
      omega
  · show ((a.entries.filter (fun e => decide (emits R e))).map EntityEntry.toDelta).Nodup
    unfold List.Nodup
    rw [List.pairwise_map]
    have hids : IdsDistinct (a.entries.filter (fun e => decide (emits R e))) :=
      (h.2.1).sublist (List.filter_sublist _)
    refine hids.imp ?_
    intro x y hxy heq
    apply hxy
    have hinfo : x.info = y.info := congrArg Delta.entity heq
    rw [hinfo]

/-- Witness for C1 at the tombstoned four-revision state of
TestChangesSince: the removal delta is reported exactly to cursors in
creationRevno ≤ R < revno. -/
theorem changesSince_emits_spec_witness :
    (⟨true, mInfo "0" ""⟩ : Delta) ∈
      ((((((newAllInfo.add (mInfo "0" "")).add (mInfo "1" "")).add
        (mInfo "2" "")).update (mId "1") (some (mInfo "1" "foo"))).incRef
        (mId "0")).update (mId "0") none).changesSince 3 := by
  have h := changesSince_emits_spec
    ((((((newAllInfo.add (mInfo "0" "")).add (mInfo "1" "")).add
      (mInfo "2" "")).update (mId "1") (some (mInfo "1" "foo"))).incRef
      (mId "0")).update (mId "0") none) 3 (by decide)
  apply (h.2.1 ⟨true, mInfo "0" ""⟩).mpr
  refine ⟨⟨mInfo "0" "", 1, 5, true, 1⟩, by decide, by decide, rfl⟩

/-! ### C5: removal of an already removed entry -/

/-- The four-revision store of test case "mark removed on already marked
entry", just before its final removal request: machine 0 is a tombstone
at revno 3 and machine 1 is live at revno 4. -/
def alreadyRemovedState : AllInfo :=
  (((((newAllInfo.add (mInfo "0" "")).add (mInfo "1" "")).incRef
    (mId "0")).update (mId "0") none).update (mId "1") (some (mInfo "1" "i-1")))

/-- Counterexample to C5: repeating the removal of the already tombstoned
machine 0 leaves the store untouched.  The tombstone keeps revno 3 and
stays at the oldest end, latestRevno stays 4: the claimed re-bump to
latestRevno + 1 and move to the tail do not happen (this is exactly what
test case "mark removed on already marked entry" expects). -/
theorem removal_already_removed_cex :
    (∃ e ∈ alreadyRemovedState.entries,
      idForInfo e.info = mId "0" ∧ e.removed = true) ∧
    alreadyRemovedState.update (mId "0") none = alreadyRemovedState ∧
    alreadyRemovedState.latestRevno = 4 ∧
    (∀ e ∈ (alreadyRemovedState.update (mId "0") none).entries,
      idForInfo e.info = mId "0" → e.revno = 3) ∧
    ¬(∃ e ∈ (alreadyRemovedState.update (mId "0") none).entries,
      e.revno = alreadyRemovedState.latestRevno + 1) := by
  decide

/-- C5 as amended: a removal request on an already removed id is a no-op:
no revno bump, no move, latestRevno unchanged.  Late clients still see
the removal through the retained tombstone, whose revno was bumped when
it was first tombstoned. -/
theorem removal_already_removed_noop (a : AllInfo) (id : InfoId) (e : EntityEntry)
    (hfind : a.findEntry id = some e) (hrm : e.removed = true) :
    a.update id none = a := by
  simp only [AllInfo.update, AllInfo.markRemoved, hfind, hrm, if_pos]

/-- Witness for the amended C5 at the state of the test. -/
theorem removal_already_removed_noop_witness :
    alreadyRemovedState.update (mId "0") none = alreadyRemovedState :=
  removal_already_removed_noop alreadyRemovedState (mId "0")
    ⟨mInfo "0" "", 1, 3, true, 1⟩ (by decide) rfl

/-! ### C6: removal of a live entry nobody holds -/

/-- C6: a removal request for a live entry with refCount 0 physically
deletes the entry - it is gone from the sequence and from the index -
while latestRevno is still advanced (Design Note 9.1). -/
theorem removal_zero_refcount_deletes (a : AllInfo) (id : InfoId) (e : EntityEntry)
    (hfind : a.findEntry id = some e) (hrm : e.removed = false) (hrc : e.refCount = 0) :
    (a.update id none).latestRevno = a.latestRevno + 1 ∧
    (a.update id none).entries = removeId id a.entries ∧
    (a.update id none).findEntry id = none := by
  have hgoal : a.update id none =
      { latestRevno := a.latestRevno + 1, entries := removeId id a.entries } := by
    simp only [AllInfo.update, AllInfo.markRemoved, hfind, hrm, hrc, if_pos]
    simp
  rw [hgoal]
  refine ⟨rfl, rfl, ?_⟩
  apply findEntry_none_iff.mpr
  intro x hx
  exact (mem_removeId.mp hx).2

/-- Witness for C6: after add of one machine followed by such a removal,
the store is empty and latestRevno is 2 (scenario S2). -/
theorem removal_zero_refcount_deletes_witness :
    ((newAllInfo.add (mInfo "0" "")).update (mId "0") none).latestRevno = 2 ∧
    ((newAllInfo.add (mInfo "0" "")).update (mId "0") none).entries = [] ∧
    ((newAllInfo.add (mInfo "0" "")).update (mId "0") none).findEntry (mId "0") = none := by
  have h := removal_zero_refcount_deletes (newAllInfo.add (mInfo "0" "")) (mId "0")
    ⟨mInfo "0" "", 1, 1, false, 0⟩ (by decide) rfl rfl
  refine ⟨by rw [h.1]; rfl, by rw [h.2.1]; rfl, h.2.2⟩

/-! ### C8: the full-replay boundary changesSince(-1) -/

/-- Counterexample to C8: in a store holding a retained tombstone (whose
creationRevno is 1, hence ≥ 0), changesSince(-1) reports no delta at all
for the tombstoned entity: a client that never saw anything cannot be
told of a removal, so every tombstone is skipped at R = -1, not emitted. -/
theorem changesSince_neg_one_cex :
    (∃ e ∈ ((((newAllInfo.add (mInfo "0" "")).add (mInfo "1" "")).incRef
        (mId "0")).update (mId "0") none).entries,
      e.removed = true ∧ 0 ≤ e.creationRevno ∧
      ∀ d ∈ ((((newAllInfo.add (mInfo "0" "")).add (mInfo "1" "")).incRef
        (mId "0")).update (mId "0") none).changesSince (-1),
          d.entity ≠ e.info) := by
  decide

/-- C8 as amended: changesSince(-1) returns exactly one delta per live
entry, in entries order, and skips every retained tombstone (all
creationRevnos are ≥ 1 > -1, so the suppression rule fires for each). -/
theorem changesSince_neg_one_live_only (a : AllInfo) (h : a.WF) :
    a.changesSince (-1) =
      (a.entries.filter (fun e => !e.removed)).map EntityEntry.toDelta := by
  unfold AllInfo.changesSince
  congr 1
  apply List.filter_congr
  intro e he
  obtain ⟨h1, h2, h3, h4⟩ := h.2.2.2 e he
  cases hr : e.removed with
  | true =>
    simp only [Bool.not_true]
    apply decide_eq_false
    intro hem
    exact hem.2 ⟨hr, by omega⟩
  | false =>
    simp only [Bool.not_false]
    apply decide_eq_true
    exact ⟨by omega, fun hc => by rw [hr] at hc; cases hc.1⟩

/-- Witness for the amended C8 at the tombstoned store of the
counterexample: only the live machine 1 is reported. -/
theorem changesSince_neg_one_live_only_witness :
    ((((newAllInfo.add (mInfo "0" "")).add (mInfo "1" "")).incRef
        (mId "0")).update (mId "0") none).changesSince (-1) =
      (((((newAllInfo.add (mInfo "0" "")).add (mInfo "1" "")).incRef
        (mId "0")).update (mId "0") none).entries.filter
          (fun e => !e.removed)).map EntityEntry.toDelta :=
  changesSince_neg_one_live_only
    ((((newAllInfo.add (mInfo "0" "")).add (mInfo "1" "")).incRef
      (mId "0")).update (mId "0") none) (by decide)

/-! ### C9: one delta per entity, carrying its latest value -/

/-- C9: a delta batch contains at most one delta per entity id, and every
non-removed delta carries the value stored in the unique current entry of
that entity - the latest value, never a superseded intermediate one. -/
theorem batch_per_id_latest (a : AllInfo) (R : Int) (h : a.WF) :
    List.Pairwise (fun d1 d2 => idForInfo d1.entity ≠ idForInfo d2.entity)
      (a.changesSince R) ∧
    ∀ d ∈ a.changesSince R, d.removed = false →
      ∃ e ∈ a.entries, e.info = d.entity ∧ e.removed = false ∧
        ∀ x ∈ a.entries, idForInfo x.info = idForInfo d.entity → x = e := by
  constructor
  · show List.Pairwise _
      ((a.entries.filter (fun e => decide (emits R e))).map EntityEntry.toDelta)
    rw [List.pairwise_map]
    have hids : IdsDistinct (a.entries.filter (fun e => decide (emits R e))) :=
      (h.2.1).sublist (List.filter_sublist _)
    exact hids.imp (fun {x y} hxy => hxy)
  · intro d hd hrm
    rcases List.mem_map.mp hd with ⟨e, he, rfl⟩
    have hmem := (List.mem_filter.mp he).1
    refine ⟨e, hmem, rfl, hrm, ?_⟩
    intro x hx hxid
    exact mem_id_unique h.2.1 hx hmem hxid

/-- Witness for C9 at the TestChangesSince store after an update of
machine 1: its delta carries the latest value i-1, not the initial one. -/
theorem batch_per_id_latest_witness :
    List.Pairwise (fun d1 d2 => idForInfo d1.entity ≠ idForInfo d2.entity)
      ((((newAllInfo.add (mInfo "0" "")).add (mInfo "1" "")).update (mId "1")
        (some (mInfo "1" "i-1"))).changesSince 0) ∧
    ∀ d ∈ (((newAllInfo.add (mInfo "0" "")).add (mInfo "1" "")).update (mId "1")
        (some (mInfo "1" "i-1"))).changesSince 0, d.removed = false →
      ∃ e ∈ (((newAllInfo.add (mInfo "0" "")).add (mInfo "1" "")).update (mId "1")
        (some (mInfo "1" "i-1"))).entries, e.info = d.entity ∧ e.removed = false ∧
        ∀ x ∈ (((newAllInfo.add (mInfo "0" "")).add (mInfo "1" "")).update (mId "1")
          (some (mInfo "1" "i-1"))).entries, idForInfo x.info = idForInfo d.entity → x = e :=
  batch_per_id_latest
    (((newAllInfo.add (mInfo "0" "")).add (mInfo "1" "")).update (mId "1")
      (some (mInfo "1" "i-1"))) 0 (by decide)

/-! ### C10: delete removes exactly its entry -/

/-- C10: when the entries sequence splits around the entry holding id,
delete(id) removes exactly that entry, leaving every other entry, their
order, and latestRevno unchanged (no revision bump). -/
theorem delete_frame (a : AllInfo) (id : InfoId) (hids : IdsDistinct a.entries)
    (e : EntityEntry) (l1 l2 : List EntityEntry)
    (hsplit : a.entries = l1 ++ e :: l2) (hid : idForInfo e.info = id) :
    (a.delete id).latestRevno = a.latestRevno ∧ (a.delete id).entries = l1 ++ l2 := by
  refine ⟨rfl, ?_⟩
  show removeId id a.entries = l1 ++ l2
  rw [hsplit] at hids ⊢
  rcases List.pairwise_append.mp hids with ⟨hp1, hp2, hcross⟩
  have hl1 : ∀ x ∈ l1, decide (idForInfo x.info ≠ id) = true := by
    intro x hx
    apply decide_eq_true
    rw [← hid]
    exact hcross x hx e (List.mem_cons_self e l2)
  have hl2 : ∀ x ∈ l2, decide (idForInfo x.info ≠ id) = true := by
    intro x hx
    apply decide_eq_true
    rw [← hid]
    intro hc
    exact (List.pairwise_cons.mp hp2).1 x hx hc.symm
  unfold removeId
  rw [List.filter_append]
  rw [List.filter_eq_self.mpr hl1]
  rw [List.filter_cons_of_neg (by simp [hid]), List.filter_eq_self.mpr hl2]

/-- Witness for C10: deleting the middle entry of a three-entry store
keeps the outer two and latestRevno 3. -/
theorem delete_frame_witness :
    ((((newAllInfo.add (mInfo "0" "")).add (mInfo "1" "")).add
      (mInfo "2" "")).delete (mId "1")).latestRevno = 3 ∧
    ((((newAllInfo.add (mInfo "0" "")).add (mInfo "1" "")).add
      (mInfo "2" "")).delete (mId "1")).entries =
      [⟨mInfo "0" "", 1, 1, false, 0⟩, ⟨mInfo "2" "", 3, 3, false, 0⟩] := by
  have h := delete_frame
    (((newAllInfo.add (mInfo "0" "")).add (mInfo "1" "")).add (mInfo "2" ""))
    (mId "1") (by decide) ⟨mInfo "1" "", 2, 2, false, 0⟩
    [⟨mInfo "0" "", 1, 1, false, 0⟩] [⟨mInfo "2" "", 3, 3, false, 0⟩]
    (by decide) (by decide)
  exact ⟨h.1, h.2⟩

/-! ### Association-list lemmas -/

theorem getAssoc_setAssoc_self {α : Type} (k : Nat) (v : α) (l : List (Nat × α)) :
    getAssoc k (setAssoc k v l) = some v := by
  induction l with
  | nil => simp [getAssoc, setAssoc]
  | cons p t ih =>
    by_cases h : p.1 = k
    · cases p
      simp_all [getAssoc, setAssoc]
    · cases p
      simp_all [getAssoc, setAssoc]

theorem getAssoc_cons {α : Type} (k k0 : Nat) (v0 : α) (t : List (Nat × α)) :
    getAssoc k ((k0, v0) :: t) = if k0 = k then some v0 else getAssoc k t := by
  by_cases h : k0 = k
  · rw [if_pos h]
    unfold getAssoc
    rw [List.find?_cons_of_pos _ (by simpa using h)]
    rfl
  · rw [if_neg h]
    unfold getAssoc
    rw [List.find?_cons_of_neg _ (by simpa using h)]

theorem eraseKey_cons {α : Type} (k k0 : Nat) (v0 : α) (t : List (Nat × α)) :
    eraseKey k ((k0, v0) :: t) =
      if k0 = k then eraseKey k t else (k0, v0) :: eraseKey k t := by
  by_cases h : k0 = k
  · rw [if_pos h]
    unfold eraseKey
    rw [List.filter_cons_of_neg (by simpa using h)]
  · rw [if_neg h]
    unfold eraseKey
    rw [List.filter_cons_of_pos (by simpa using h)]

theorem getAssoc_setAssoc_ne {α : Type} {k k' : Nat} (hne : k ≠ k') (v : α)
    (l : List (Nat × α)) : getAssoc k (setAssoc k' v l) = getAssoc k l := by
  induction l with
  | nil =>
    show getAssoc k [(k', v)] = getAssoc k []
    rw [getAssoc_cons, if_neg (fun h => hne h.symm)]
  | cons p t ih =>
    obtain ⟨k0, v0⟩ := p
    show getAssoc k (if k0 = k' then (k', v) :: t else (k0, v0) :: setAssoc k' v t) = _
    by_cases h : k0 = k'
    · rw [if_pos h, getAssoc_cons, if_neg (fun hc => hne hc.symm), getAssoc_cons,
        if_neg (fun hc => hne (h ▸ hc).symm)]
    · rw [if_neg h, getAssoc_cons, getAssoc_cons, ih]

theorem getAssoc_eraseKey_self {α : Type} (k : Nat) (l : List (Nat × α)) :
    getAssoc k (eraseKey k l) = none := by
  induction l with
  | nil => rfl
  | cons p t ih =>
    obtain ⟨k0, v0⟩ := p
    rw [eraseKey_cons]
    by_cases h : k0 = k
    · rw [if_pos h]
      exact ih
    · rw [if_neg h, getAssoc_cons, if_neg h]
      exact ih

theorem getAssoc_eraseKey_ne {α : Type} {k k' : Nat} (hne : k ≠ k') (l : List (Nat × α)) :
    getAssoc k (eraseKey k' l) = getAssoc k l := by
  induction l with
  | nil => rfl
  | cons p t ih =>
    obtain ⟨k0, v0⟩ := p
    rw [eraseKey_cons]
    by_cases h : k0 = k'
    · rw [if_pos h, getAssoc_cons, if_neg (fun hc => hne ((h ▸ hc : k' = k)).symm)]
      exact ih
    · rw [if_neg h, getAssoc_cons, getAssoc_cons, ih]

/-! ### Pointwise effect of decRef and of the leave pass -/

theorem decRef_keeps_IdsDistinct {a : AllInfo} (h : IdsDistinct a.entries) (id : InfoId) :
    IdsDistinct (a.decRef id).entries := by
  cases hfind : a.findEntry id with
  | none => simpa only [AllInfo.decRef, hfind] using h
  | some e =>
    simp only [AllInfo.decRef, hfind]
    split
    · exact h.sublist (removeId_sublist id _)
    · show IdsDistinct (a.entries.map (dropRef id))
      unfold IdsDistinct at h ⊢
      rw [List.pairwise_map]
      exact h.imp (fun {x y} hxy => by rw [dropRef_info, dropRef_info]; exact hxy)

theorem decRef_untouched {a : AllInfo} {id : InfoId} {x : EntityEntry}
    (hne : idForInfo x.info ≠ id) (hx : x ∈ a.entries) : x ∈ (a.decRef id).entries := by
  cases hfind : a.findEntry id with
  | none => simpa only [AllInfo.decRef, hfind] using hx
  | some e =>
    simp only [AllInfo.decRef, hfind]
    split
    · exact mem_removeId.mpr ⟨hx, hne⟩
    · show x ∈ a.entries.map (dropRef id)
      apply List.mem_map.mpr
      refine ⟨x, hx, ?_⟩
      unfold dropRef
      rw [if_neg hne]

theorem decRef_ids_shrink {a : AllInfo} {id : InfoId} {x : EntityEntry}
    (hx : x ∈ (a.decRef id).entries) :
    ∃ y ∈ a.entries, idForInfo x.info = idForInfo y.info := by
  cases hfind : a.findEntry id with
  | none =>
    have hgoal : a.decRef id = a := by simp only [AllInfo.decRef, hfind]
    rw [hgoal] at hx
    exact ⟨x, hx, rfl⟩
  | some e =>
    by_cases hcond : e.removed = true ∧ e.refCount ≤ 1
    · have hgoal : a.decRef id = a.delete id := by
        simp only [AllInfo.decRef, hfind, if_pos hcond]
      rw [hgoal] at hx
      have hx' : x ∈ removeId id a.entries := hx
      exact ⟨x, (mem_removeId.mp hx').1, rfl⟩
    · have hgoal : a.decRef id = { a with entries := a.entries.map (dropRef id) } := by
        simp only [AllInfo.decRef, hfind, if_neg hcond]
      rw [hgoal] at hx
      have hx' : x ∈ a.entries.map (dropRef id) := hx
      rcases List.mem_map.mp hx' with ⟨y, hy, rfl⟩
      exact ⟨y, hy, by rw [dropRef_info]⟩

theorem decRef_hit_live {a : AllInfo} (hids : IdsDistinct a.entries)
    {e : EntityEntry} (he : e ∈ a.entries)
    (hnot : ¬(e.removed = true ∧ e.refCount ≤ 1)) :
    { e with refCount := e.refCount - 1 } ∈ (a.decRef (idForInfo e.info)).entries := by
  have hfind := findEntry_of_mem hids he
  simp only [AllInfo.decRef, hfind]
  rw [if_neg hnot]
  show _ ∈ a.entries.map (dropRef (idForInfo e.info))
  apply List.mem_map.mpr
  refine ⟨e, he, ?_⟩
  unfold dropRef
  rw [if_pos rfl]

theorem decRef_hit_dead {a : AllInfo} (hids : IdsDistinct a.entries)
    {e : EntityEntry} (he : e ∈ a.entries)
    (hdead : e.removed = true ∧ e.refCount ≤ 1) :
    ∀ x ∈ (a.decRef (idForInfo e.info)).entries, idForInfo x.info ≠ idForInfo e.info := by
  have hfind := findEntry_of_mem hids he
  intro x hx
  simp only [AllInfo.decRef, hfind] at hx
  rw [if_pos hdead] at hx
  exact (mem_removeId.mp hx).2

theorem foldl_decRef_absent {ids : List InfoId} {a : AllInfo} {j : InfoId}
    (habs : ∀ x ∈ a.entries, idForInfo x.info ≠ j) :
    ∀ x ∈ (ids.foldl AllInfo.decRef a).entries, idForInfo x.info ≠ j := by
  induction ids generalizing a with
  | nil => exact habs
  | cons i t ih =>
    rw [List.foldl_cons]
    apply ih
    intro x hx
    rcases decRef_ids_shrink hx with ⟨y, hy, heq⟩
    rw [heq]
    exact habs y hy

theorem foldl_decRef_effect (ids : List InfoId) (a : AllInfo)
    (hids : IdsDistinct a.entries) (hnodup : ids.Nodup) :
    ∀ e ∈ a.entries,
      (idForInfo e.info ∉ ids → e ∈ (ids.foldl AllInfo.decRef a).entries) ∧
      (idForInfo e.info ∈ ids →
        if e.removed = true ∧ e.refCount ≤ 1
        then ∀ x ∈ (ids.foldl AllInfo.decRef a).entries,
          idForInfo x.info ≠ idForInfo e.info
        else { e with refCount := e.refCount - 1 } ∈
          (ids.foldl AllInfo.decRef a).entries) := by
  induction ids generalizing a with
  | nil =>
    intro e he
    exact ⟨fun _ => he, fun hmem => absurd hmem (List.not_mem_nil _)⟩
  | cons i t ih =>
    intro e he
    rw [List.foldl_cons]
    have hids' : IdsDistinct (a.decRef i).entries := decRef_keeps_IdsDistinct hids i
    have hnodup' : t.Nodup := (List.nodup_cons.mp hnodup).2
    have hinotm : i ∉ t := (List.nodup_cons.mp hnodup).1
    by_cases hie : idForInfo e.info = i
    · subst hie
      constructor
      · intro hnm
        exact absurd (List.mem_cons_self _ _) hnm
      · intro _
        split
        · rename_i hdead
          apply foldl_decRef_absent
          exact decRef_hit_dead hids he hdead
        · rename_i hlive
          have hin : { e with refCount := e.refCount - 1 } ∈ (a.decRef (idForInfo e.info)).entries :=
            decRef_hit_live hids he hlive
          have := (ih (a.decRef (idForInfo e.info)) hids' hnodup'
            { e with refCount := e.refCount - 1 } hin).1
          exact this (by simpa using hinotm)
    · have he' : e ∈ (a.decRef i).entries := decRef_untouched hie he
      have hih := ih (a.decRef i) hids' hnodup' e he'
      constructor
      · intro hnm
        exact hih.1 (fun hc => hnm (List.mem_cons_of_mem i hc))
      · intro hmem
        rcases List.mem_cons.mp hmem with hc | hc
        · exact absurd hc hie
        · exact hih.2 hc

theorem leave_effect (a : AllInfo) (wrevno : Int) (hids : IdsDistinct a.entries) :
    ∀ e ∈ a.entries,
      (¬heldByWatcher wrevno e → e ∈ (a.leave wrevno).entries) ∧
      (heldByWatcher wrevno e →
        if e.removed = true ∧ e.refCount ≤ 1
        then ∀ x ∈ (a.leave wrevno).entries, idForInfo x.info ≠ idForInfo e.info
        else { e with refCount := e.refCount - 1 } ∈ (a.leave wrevno).entries) := by
  intro e he
  have hnodup : ((a.entries.filter (fun x => decide (heldByWatcher wrevno x))).map
      (fun x => idForInfo x.info)).Nodup := by
    unfold List.Nodup
    rw [List.pairwise_map]
    exact (hids.sublist (List.filter_sublist _)).imp (fun {x y} h => h)
  have hmem_iff : idForInfo e.info ∈
      (a.entries.filter (fun x => decide (heldByWatcher wrevno x))).map
        (fun x => idForInfo x.info) ↔ heldByWatcher wrevno e := by
    constructor
    · intro hc
      rcases List.mem_map.mp hc with ⟨y, hy, heq⟩
      rcases List.mem_filter.mp hy with ⟨hymem, hyheld⟩
      have hye : y = e := mem_id_unique hids hymem he heq
      rw [← hye]
      exact of_decide_eq_true hyheld
    · intro hh
      exact List.mem_map.mpr ⟨e, List.mem_filter.mpr ⟨he, decide_eq_true hh⟩, rfl⟩
  obtain ⟨h1, h2⟩ := foldl_decRef_effect
    ((a.entries.filter (fun x => decide (heldByWatcher wrevno x))).map
      (fun x => idForInfo x.info)) a hids hnodup e he
  exact ⟨fun hnh => h1 (fun hc => hnh (hmem_iff.mp hc)),
    fun hh => h2 (hmem_iff.mpr hh)⟩

/-! ### C3: stopping a client -/

/-- The dispatcher state of TestHandleStopDecRefIfAlreadySeenAndNotRemoved:
one machine at revno 1 with refCount 1, and a client whose cursor is at
revno 1 (it has seen the machine live). -/
def seenLiveState : AllWatcher :=
  ⟨(newAllInfo.add (mInfo "0" "")).incRef (mId "0"), [], [(0, ⟨1, false⟩)]⟩

/-- Counterexample to C3: the claim decrements only when
w.revno ≥ creationRevno and w.revno < revno and not removed.  Here
w.revno = 1 = entry.revno, so the claimed condition is false and the
claim predicts an unchanged refCount - yet stopping the client does
decrement it from 1 to 0 (the expectation of the cited test
TestHandleStopDecRefIfAlreadySeenAndNotRemoved). -/
theorem handle_stop_decref_cex :
    (∃ e ∈ seenLiveState.all.entries, idForInfo e.info = mId "0" ∧
      e.refCount = 1 ∧ e.removed = false ∧
      ¬((seenLiveState.getW 0).revno ≥ e.creationRevno ∧
        (seenLiveState.getW 0).revno < e.revno ∧ e.removed = false)) ∧
    (∃ e ∈ (seenLiveState.handle ⟨0, none⟩).1.all.entries,
      idForInfo e.info = mId "0" ∧ e.refCount = 0) := by
  decide

/-- C3 as amended: when a non-stopped client is stopped, its pending
requests are all dequeued and replied false, its queue is removed, it is
marked stopped, and for every entry the refCount is decremented exactly
when the client still holds the entry: w.revno ≥ creationRevno and
(the entry is not removed, or w.revno < revno).  The clause requiring
w.revno < revno applies only to tombstones; a live entry the client has
seen is always released, and a decremented tombstone reaching refCount 0
is purged. -/
theorem handle_stop_effect (aw : AllWatcher) (wid : Nat)
    (hst : (aw.getW wid).stopped = false) (hids : IdsDistinct aw.all.entries) :
    (aw.handle ⟨wid, none⟩).2 =
      (aw.getQueue wid).map (fun r => ⟨wid, r, false, []⟩) ∧
    (aw.handle ⟨wid, none⟩).1.waiting = eraseKey wid aw.waiting ∧
    (aw.handle ⟨wid, none⟩).1.getQueue wid = [] ∧
    (aw.handle ⟨wid, none⟩).1.getW wid = ⟨(aw.getW wid).revno, true⟩ ∧
    ∀ e ∈ aw.all.entries,
      (¬heldByWatcher (aw.getW wid).revno e →
        e ∈ (aw.handle ⟨wid, none⟩).1.all.entries) ∧
      (heldByWatcher (aw.getW wid).revno e →
        if e.removed = true ∧ e.refCount ≤ 1
        then ∀ x ∈ (aw.handle ⟨wid, none⟩).1.all.entries,
          idForInfo x.info ≠ idForInfo e.info
        else { e with refCount := e.refCount - 1 } ∈
          (aw.handle ⟨wid, none⟩).1.all.entries) := by
  rw [handle_of_stopreq hst]
  refine ⟨rfl, rfl, ?_, ?_, ?_⟩
  · show (match getAssoc wid (eraseKey wid aw.waiting) with
      | some q => q | none => []) = []
    rw [getAssoc_eraseKey_self]
  · show (match getAssoc wid (setAssoc wid ⟨(aw.getW wid).revno, true⟩ aw.wstates) with
      | some w => w | none => ⟨0, false⟩) = _
    rw [getAssoc_setAssoc_self]
  · exact leave_effect aw.all (aw.getW wid).revno hids

/-- Witness for the amended C3 at the state of the cited tests: stopping
the cursor-1 client releases its hold (refCount 1 becomes 0), while the
entry itself stays. -/
theorem handle_stop_effect_witness :
    (seenLiveState.handle ⟨0, none⟩).2 = [] ∧
    (seenLiveState.handle ⟨0, none⟩).1.getQueue 0 = [] ∧
    (seenLiveState.handle ⟨0, none⟩).1.getW 0 = ⟨1, true⟩ ∧
    (⟨mInfo "0" "", 1, 1, false, 0⟩ : EntityEntry) ∈
      (seenLiveState.handle ⟨0, none⟩).1.all.entries := by
  have h := handle_stop_effect seenLiveState 0 rfl (by decide)
  refine ⟨h.1, h.2.2.1, h.2.2.2.1, ?_⟩
  have h5 := (h.2.2.2.2 ⟨mInfo "0" "", 1, 1, false, 1⟩ (by decide)).2 (by decide)
  rw [if_neg (by decide)] at h5
  exact h5

/-! ### C4: one answered request per client per respond pass -/

theorem changesSince_latest_empty (a : AllInfo) (h : a.WF) :
    a.changesSince a.latestRevno = [] := by
  unfold AllInfo.changesSince
  have hfil : a.entries.filter (fun e => decide (emits a.latestRevno e)) = [] := by
    apply List.filter_eq_nil_iff.mpr
    intro e he
    have h3 := (h.2.2.2 e he).2.2.1
    intro hc
    have hem := of_decide_eq_true hc
    have := hem.1
    omega
  rw [hfil]
  rfl

theorem respondOne_replies_wid (aw : AllWatcher) (w' : Nat) :
    ∀ rp ∈ (aw.respondOne w').2, rp.wid = w' := by
  intro rp hrp
  by_cases hch : aw.all.changesSince (aw.getW w').revno = []
  · rw [respondOne_of_no_changes hch] at hrp
    cases hrp
  · cases hq : aw.getQueue w' with
    | nil =>
      rw [respondOne_of_empty_queue hq] at hrp
      cases hrp
    | cons r rest =>
      rw [respondOne_of_changes hch hq] at hrp
      rcases List.mem_singleton.mp hrp with rfl
      rfl

theorem respondOne_frame {aw : AllWatcher} {w' wid : Nat} (hne : w' ≠ wid) :
    (aw.respondOne w').1.getQueue wid = aw.getQueue wid ∧
    (aw.respondOne w').1.getW wid = aw.getW wid := by
  by_cases hch : aw.all.changesSince (aw.getW w').revno = []
  · rw [respondOne_of_no_changes hch]
    exact ⟨rfl, rfl⟩
  · cases hq : aw.getQueue w' with
    | nil =>
      rw [respondOne_of_empty_queue hq]
      exact ⟨rfl, rfl⟩
    | cons r rest =>
      rw [respondOne_of_changes hch hq]
      constructor
      · show (match getAssoc wid (if rest.isEmpty then eraseKey w' aw.waiting
            else setAssoc w' rest aw.waiting) with
          | some q => q | none => []) = aw.getQueue wid
        by_cases hrest : rest.isEmpty
        · rw [if_pos hrest, getAssoc_eraseKey_ne (fun h => hne h.symm)]
          rfl
        · rw [if_neg hrest, getAssoc_setAssoc_ne (fun h => hne h.symm)]
          rfl
      · show (match getAssoc wid (setAssoc w' _ aw.wstates) with
          | some w => w | none => ⟨0, false⟩) = aw.getW wid
        rw [getAssoc_setAssoc_ne (fun h => hne h.symm)]
        rfl

theorem foldl_respond_frame (keys : List Nat) (wid : Nat) (hk : wid ∉ keys) :
    ∀ p : AllWatcher × List Reply,
      ((keys.foldl (fun acc w => ((acc.1.respondOne w).1, acc.2 ++ (acc.1.respondOne w).2))
          p).1.getQueue wid = p.1.getQueue wid) ∧
      ((keys.foldl (fun acc w => ((acc.1.respondOne w).1, acc.2 ++ (acc.1.respondOne w).2))
          p).1.getW wid = p.1.getW wid) ∧
      (∀ rp ∈ (keys.foldl (fun acc w => ((acc.1.respondOne w).1, acc.2 ++ (acc.1.respondOne w).2))
          p).2, rp ∈ p.2 ∨ rp.wid ≠ wid) ∧
      (∀ rp ∈ p.2, rp ∈
        (keys.foldl (fun acc w => ((acc.1.respondOne w).1, acc.2 ++ (acc.1.respondOne w).2))
          p).2) := by
  induction keys with
  | nil => exact fun p => ⟨rfl, rfl, fun rp h => Or.inl h, fun rp h => h⟩
  | cons w t ih =>
    intro p
    have hw : w ≠ wid := fun h => hk (h ▸ List.mem_cons_self w t)
    have ht : wid ∉ t := fun h => hk (List.mem_cons_of_mem w h)
    rw [List.foldl_cons]
    obtain ⟨ihq, ihw, ihr, ihm⟩ := ih ht ((p.1.respondOne w).1, p.2 ++ (p.1.respondOne w).2)
    refine ⟨?_, ?_, ?_, ?_⟩
    · rw [ihq]
      exact (respondOne_frame hw).1
    · rw [ihw]
      exact (respondOne_frame hw).2
    · intro rp hrp
      rcases ihr rp hrp with h | h
      · rcases List.mem_append.mp h with h | h
        · exact Or.inl h
        · refine Or.inr ?_
          rw [respondOne_replies_wid p.1 w rp h]
          exact hw
      · exact Or.inr h
    · intro rp hrp
      exact ihm rp (List.mem_append.mpr (Or.inl hrp))

/-- C4: in one respond pass, a client whose pending queue holds the newest
request r (older requests rest behind it) is answered only when
changesSince of its cursor is nonempty, and then exactly once: the single
reply for this client answers r with true and exactly those deltas, the
older requests stay queued, the cursor advances to latestRevno, and -
since every entry revno is at most latestRevno - a repeated Next with no
intervening changes finds an empty delta batch and blocks. -/
theorem respond_newest_per_client (aw : AllWatcher) (wid r : Nat) (rest : List Nat)
    (others : List (Nat × List Nat))
    (hwait : aw.waiting = (wid, r :: rest) :: others)
    (hkeys : wid ∉ others.map Prod.fst) :
    (aw.all.changesSince (aw.getW wid).revno = [] →
      aw.respond.1.getQueue wid = r :: rest ∧
      aw.respond.1.getW wid = aw.getW wid ∧
      ∀ rp ∈ aw.respond.2, rp.wid ≠ wid) ∧
    (aw.all.changesSince (aw.getW wid).revno ≠ [] →
      (⟨wid, r, true, aw.all.changesSince (aw.getW wid).revno⟩ : Reply) ∈ aw.respond.2 ∧
      (∀ rp ∈ aw.respond.2, rp.wid = wid →
        rp = ⟨wid, r, true, aw.all.changesSince (aw.getW wid).revno⟩) ∧
      aw.respond.1.getQueue wid = rest ∧
      (aw.respond.1.getW wid).revno = aw.all.latestRevno ∧
      (aw.all.WF → aw.respond.1.all.changesSince ((aw.respond.1.getW wid).revno) = [])) := by
  have hq : aw.getQueue wid = r :: rest := by
    show (match getAssoc wid aw.waiting with | some q => q | none => []) = r :: rest
    rw [hwait, getAssoc_cons, if_pos rfl]
  have hkeymap : aw.waiting.map Prod.fst = wid :: others.map Prod.fst := by
    rw [hwait]
    rfl
  have hstep : aw.respond = (others.map Prod.fst).foldl
      (fun acc w => ((acc.1.respondOne w).1, acc.2 ++ (acc.1.respondOne w).2))
      ((aw.respondOne wid).1, (aw.respondOne wid).2) := by
    show (aw.waiting.map Prod.fst).foldl
      (fun acc w => ((acc.1.respondOne w).1, acc.2 ++ (acc.1.respondOne w).2)) (aw, []) = _
    rw [hkeymap, List.foldl_cons]
    congr 1
  constructor
  · intro hch
    have hpair : ((aw.respondOne wid).1, (aw.respondOne wid).2) =
        (aw, ([] : List Reply)) := by
      rw [respondOne_of_no_changes hch]
    rw [hpair] at hstep
    obtain ⟨hfq, hfw, hfr, hfm⟩ := foldl_respond_frame (others.map Prod.fst) wid hkeys
      (aw, ([] : List Reply))
    dsimp only at hfq hfw hfr hfm
    refine ⟨?_, ?_, ?_⟩
    · rw [hstep, hfq, hq]
    · rw [hstep, hfw]
    · intro rp hrp
      rw [hstep] at hrp
      rcases hfr rp hrp with h | h
      · cases h
      · exact h
  · intro hch
    obtain ⟨hfq, hfw, hfr, hfm⟩ := foldl_respond_frame (others.map Prod.fst) wid hkeys
      ((aw.respondOne wid).1, (aw.respondOne wid).2)
    dsimp only at hfq hfw hfr hfm
    have hone := respondOne_of_changes hch hq
    have hrone : (aw.respondOne wid).2 =
        [⟨wid, r, true, aw.all.changesSince (aw.getW wid).revno⟩] := by
      rw [hone]
    have hqres : (aw.respondOne wid).1.getQueue wid = rest := by
      rw [hone]
      show (match getAssoc wid (if rest.isEmpty then eraseKey wid aw.waiting
          else setAssoc wid rest aw.waiting) with
        | some q => q | none => []) = rest
      by_cases hrest : rest.isEmpty
      · rw [if_pos hrest, getAssoc_eraseKey_self]
        cases rest with
        | nil => rfl
        | cons a t => cases hrest
      · rw [if_neg hrest, getAssoc_setAssoc_self]
    have hwres : (aw.respondOne wid).1.getW wid =
        ⟨aw.all.latestRevno, (aw.getW wid).stopped⟩ := by
      rw [hone]
      show (match getAssoc wid (setAssoc wid _ aw.wstates) with
        | some w => w | none => ⟨0, false⟩) = _
      rw [getAssoc_setAssoc_self]
    have hrev : (aw.respond.1.getW wid).revno = aw.all.latestRevno := by
      rw [hstep, hfw, hwres]
    refine ⟨?_, ?_, ?_, hrev, ?_⟩
    · rw [hstep]
      apply hfm
      rw [hrone]
      exact List.mem_singleton.mpr rfl
    · intro rp hrp hwid
      rw [hstep] at hrp
      rcases hfr rp hrp with h | h
      · rw [hrone] at h
        exact List.mem_singleton.mp h
      · exact absurd hwid h
    · rw [hstep, hfq, hqres]
    · intro hWF
      have hWF2 : aw.respond.1.all.WF := AllWatcher.respond_all_WF hWF
      have hlat : aw.respond.1.all.latestRevno = aw.all.latestRevno :=
        AllWatcher.respond_latest aw
      rw [hrev, ← hlat]
      exact changesSince_latest_empty _ hWF2

/-- Witness for C4 at the TestRespondMultiple situation: a client with two
pending requests (newest 101) over a one-machine store is answered once,
on request 101, with the single delta; request 100 stays queued, the
cursor advances to 1 and the next pass has nothing to deliver. -/
theorem respond_newest_per_client_witness :
    (⟨0, 101, true, [⟨false, mInfo "0" ""⟩]⟩ : Reply) ∈
      (AllWatcher.mk (newAllInfo.add (mInfo "0" "")) [(0, [101, 100])]
        [(0, ⟨0, false⟩)]).respond.2 ∧
    (AllWatcher.mk (newAllInfo.add (mInfo "0" "")) [(0, [101, 100])]
      [(0, ⟨0, false⟩)]).respond.1.getQueue 0 = [100] ∧
    ((AllWatcher.mk (newAllInfo.add (mInfo "0" "")) [(0, [101, 100])]
      [(0, ⟨0, false⟩)]).respond.1.getW 0).revno = 1 ∧
    (AllWatcher.mk (newAllInfo.add (mInfo "0" "")) [(0, [101, 100])]
      [(0, ⟨0, false⟩)]).respond.1.all.changesSince
        (((AllWatcher.mk (newAllInfo.add (mInfo "0" "")) [(0, [101, 100])]
          [(0, ⟨0, false⟩)]).respond.1.getW 0).revno) = [] := by
  have h := (respond_newest_per_client
    (AllWatcher.mk (newAllInfo.add (mInfo "0" "")) [(0, [101, 100])] [(0, ⟨0, false⟩)])
    0 101 [100] [] rfl (by decide)).2 (by decide)
  have hc : (AllWatcher.mk (newAllInfo.add (mInfo "0" "")) [(0, [101, 100])]
      [(0, ⟨0, false⟩)]).all.changesSince
        ((AllWatcher.mk (newAllInfo.add (mInfo "0" "")) [(0, [101, 100])]
          [(0, ⟨0, false⟩)]).getW 0).revno = [⟨false, mInfo "0" ""⟩] := by decide
  refine ⟨?_, h.2.2.1, h.2.2.2.1, h.2.2.2.2 (by decide)⟩
  have h1 := h.1
  rw [hc] at h1
  exact h1

/-! ### C7: the dispatcher loop and sticky errors -/

/-- Modelled from the spec: one input consumed by an iteration of the
dispatcher loop, which selects between a backing change event (carrying
the result of the fetch the backing performs in changed: a value, a
not-found reported as a null update, or a transport error), a client
request, and the stop signal. -/
inductive BackingEvent where
  | change (id : InfoId) (fetched : Except String (Option EntityInfo))
  | request (req : AllRequest)
  | stopSignal

/-- Modelled from the spec: the loop state: the dispatcher, the replies
delivered so far on request reply channels, and - once the loop has
exited - the sticky error (dead = some none is a clean stop, dead =
some (some e) a backing failure e). -/
structure LoopState where
  aw : AllWatcher
  replies : List Reply
  dead : Option (Option String)

/-- The error returned to clients of a stopped watcher
(errWatcherStopped in the source). -/
def ErrWatcherStopped : String := "state watcher was stopped"

/-- Modelled from the spec: one loop iteration.  A dead loop consumes
nothing.  A change event applies Backing.changed - update with the
fetched value, null when absent, or a fatal error - and then responds; a
request is handled and then responded to; the stop signal kills the loop
with no sticky error. -/
def stepLoop (s : LoopState) (ev : BackingEvent) : LoopState :=
  match s.dead with
  | some _ => s
  | none =>
    match ev with
    | .stopSignal => { s with dead := some none }
    | .change id res =>
      match res with
      | .error e => { s with dead := some (some e) }
      | .ok info =>
        { s with
            aw := ({ s.aw with all := s.aw.all.update id info }).respond.1,
            replies := s.replies ++
              ({ s.aw with all := s.aw.all.update id info }).respond.2 }
    | .request req =>
      { s with
          aw := ((s.aw.handle req).1).respond.1,
          replies := s.replies ++ (s.aw.handle req).2 ++ ((s.aw.handle req).1).respond.2 }

/-- Modelled from the spec: the loop run: a failing bulk load
(Backing.getAll) kills the loop before any input is served; otherwise the
initial entities are loaded through update - as the test backing getAll
does - and the inputs are consumed in order. -/
def runLoop (getAllRes : Except String (List EntityInfo))
    (events : List BackingEvent) : LoopState :=
  match getAllRes with
  | .error e => { aw := newAllWatcher, replies := [], dead := some (some e) }
  | .ok infos =>
    events.foldl stepLoop
      { aw := { newAllWatcher with
          all := infos.foldl (fun a i => a.update (idForInfo i) (some i)) newAllInfo },
        replies := [], dead := none }

/-- The error a Next call reports when its request was never answered
true: the sticky backing error when there is one, ErrWatcherStopped
otherwise. -/
def stickyOr (s : LoopState) : String :=
  match s.dead with
  | some (some e) => e
  | _ => ErrWatcherStopped

/-- The reply, if any, delivered for the request (wid, reqId). -/
def findReply (s : LoopState) (wid reqId : Nat) : Option Reply :=
  s.replies.find? (fun rp => decide (rp.wid = wid ∧ rp.reqId = reqId))

/-- Modelled from the spec: the outcome of a Next call: the delta batch
of a true reply; ErrWatcherStopped on a false reply (the dispatcher was
alive and stopped this client); otherwise - pending at loop death or sent
after it - the sticky error, ErrWatcherStopped when none. -/
def nextOutcome (s : LoopState) (wid reqId : Nat) : Except String (List Delta) :=
  match findReply s wid reqId with
  | some rp => if rp.ok then .ok rp.changes else .error ErrWatcherStopped
  | none => .error (stickyOr s)

theorem stepLoop_dead {s : LoopState} {d : Option String} (h : s.dead = some d)
    (ev : BackingEvent) : stepLoop s ev = s := by
  unfold stepLoop
  rw [h]

theorem foldl_stepLoop_dead {s : LoopState} {d : Option String} (h : s.dead = some d)
    (l : List BackingEvent) : l.foldl stepLoop s = s := by
  induction l with
  | nil => rfl
  | cons ev t ih =>
    rw [List.foldl_cons, stepLoop_dead h ev]
    exact ih

/-- C7: an error surfaced by the backing kills the loop and is sticky: a
dead loop consumes no further input, a change event whose fetch fails
transitions a live loop to dead with that error, a failing bulk load is
the same error for every request, and every Next whose request was never
answered true reports the sticky error - the backing error when there is
one, ErrWatcherStopped after a plain stop or for a client the dispatcher
stopped individually (a false reply). -/
theorem backing_error_sticky :
    (∀ (s : LoopState) (ev : BackingEvent) (d : Option String),
      s.dead = some d → stepLoop s ev = s) ∧
    (∀ (g : Except String (List EntityInfo)) (pre post : List BackingEvent)
      (id : InfoId) (e : String),
      (runLoop g pre).dead = none →
      (runLoop g (pre ++ BackingEvent.change id (Except.error e) :: post)).dead =
        some (some e)) ∧
    (∀ (e : String) (events : List BackingEvent) (wid reqId : Nat),
      nextOutcome (runLoop (Except.error e) events) wid reqId = Except.error e) ∧
    (∀ (s : LoopState) (wid reqId : Nat) (e : String),
      s.dead = some (some e) → findReply s wid reqId = none →
      nextOutcome s wid reqId = Except.error e) ∧
    (∀ (s : LoopState) (wid reqId : Nat),
      s.dead = some none → findReply s wid reqId = none →
      nextOutcome s wid reqId = Except.error ErrWatcherStopped) ∧
    (∀ (s : LoopState) (wid reqId : Nat) (rp : Reply),
      findReply s wid reqId = some rp → rp.ok = false →
      nextOutcome s wid reqId = Except.error ErrWatcherStopped) := by
  refine ⟨fun s ev d h => stepLoop_dead h ev, ?_, ?_, ?_, ?_, ?_⟩
  · intro g pre post id e hlive
    cases g with
    | error e0 =>
      rw [show (runLoop (Except.error e0) pre).dead = some (some e0) from rfl] at hlive
      cases hlive
    | ok infos =>
      have hsplit : runLoop (Except.ok infos) (pre ++ BackingEvent.change id (Except.error e) :: post) =
          post.foldl stepLoop
            (stepLoop (runLoop (Except.ok infos) pre) (BackingEvent.change id (Except.error e))) := by
        simp only [runLoop]
        rw [List.foldl_append, List.foldl_cons]
      rw [hsplit]
      have hstep : (stepLoop (runLoop (Except.ok infos) pre)
          (BackingEvent.change id (Except.error e))).dead = some (some e) := by
        unfold stepLoop
        rw [hlive]
      rw [foldl_stepLoop_dead hstep post]
      exact hstep
  · intro e events wid reqId
    rfl
  · intro s wid reqId e hdead hnone
    unfold nextOutcome
    rw [hnone]
    unfold stickyOr
    rw [hdead]
  · intro s wid reqId hdead hnone
    unfold nextOutcome
    rw [hnone]
    unfold stickyOr
    rw [hdead]
  · intro s wid reqId rp hfind hfalse
    have hn : nextOutcome s wid reqId =
        if rp.ok then Except.ok rp.changes else Except.error ErrWatcherStopped := by
      unfold nextOutcome
      rw [hfind]
    rw [hn, hfalse]
    rfl

/-- Witness for C7, mirroring TestStateWatcherStopBecauseAllWatcherError:
after a served request, a backing change whose fetch fails with
"some error" kills the loop; the answered Next carried the initial
machine, and the pending Next issued afterwards reports "some error". -/
theorem backing_error_sticky_witness :
    nextOutcome (runLoop (Except.ok [mInfo "0" ""])
      [BackingEvent.request ⟨0, some 1⟩,
       BackingEvent.change (mId "1") (Except.error "some error"),
       BackingEvent.request ⟨0, some 2⟩]) 0 2 = Except.error "some error" ∧
    nextOutcome (runLoop (Except.ok [mInfo "0" ""])
      [BackingEvent.request ⟨0, some 1⟩,
       BackingEvent.change (mId "1") (Except.error "some error"),
       BackingEvent.request ⟨0, some 2⟩]) 0 1 =
      Except.ok [⟨false, mInfo "0" ""⟩] := by
  constructor
  · exact backing_error_sticky.2.2.2.1
      (runLoop (Except.ok [mInfo "0" ""])
        [BackingEvent.request ⟨0, some 1⟩,
         BackingEvent.change (mId "1") (Except.error "some error"),
         BackingEvent.request ⟨0, some 2⟩]) 0 2 "some error" (by decide) (by decide)
  · rfl

end Megawatcher
